import Mathlib

set_option linter.unusedVariables false

/-! Verification of the types-publisher test-impact core: the change
classifier, the package catalog, removal validation, and the test
orchestration and worker-pool reporting logic. Definitions are shallow
embeddings of the TypeScript sources (src/src/create-search-index.ts and
the packages library); a few collaborators that are only declared, not
defined, in the repository are modelled from the specification and marked
as such in their doc comments. -/

/-- Major version selector of a dependency: an exact number or the
wildcard "*" (DependencyVersion = number | "*" in lib/packages). -/
inductive DependencyVersion where
  | exact (n : Nat)
  | star
  deriving DecidableEq, Repr

/-- PackageId from lib/packages: a name together with a major version
selector. -/
structure PackageId where
  name : String
  majorVersion : DependencyVersion
  deriving DecidableEq, Repr

/-- Splitting a character list at every occurrence of the separator, with
the semantics of the JavaScript String.split: the empty list yields one
empty segment, and separators at the ends yield empty segments. -/
def splitOnChar (c : Char) : List Char → List (List Char)
  | [] => [[]]
  | x :: xs =>
    if x = c then
      [] :: splitOnChar c xs
    else
      match splitOnChar c xs with
      | [] => [[x]]
      | h :: t => (x :: h) :: t

/-- String form of splitOnChar; used to embed the calls of split("/") and
split(".") from the sources in a form the kernel can evaluate. -/
def splitStr (c : Char) (s : String) : List String :=
  (splitOnChar c s.data).map String.mk

/-- Modelled from the spec: typesDirectoryName from lib/settings is not in
the sources; the spec fixes a root directory under which all typings live,
and the doc comment of getDependencyFromFile shows it as "types". -/
def typesDirectoryName : String := "types"

/-- Digits of a decimal numeral folded into a Nat. -/
def digitsToNat (l : List Char) : Nat :=
  l.foldl (fun a c => a * 10 + (c.toNat - 48)) 0

/-- Modelled from the spec: parseMajorVersionFromDirectoryName from
lib/definition-parser is not in the sources; the spec describes the
major-version directory pattern as a literal version marker followed by
digits, and the doc comment of getDependencyFromFile shows the marker as
"v" (as in "types/a/v3/c"). -/
def parseMajorVersionFromDirectoryName (dir : String) : Option Nat :=
  match dir.data with
  | 'v' :: rest =>
      if rest ≠ [] ∧ rest.all Char.isDigit then some (digitsToNat rest) else none
  | _ => none

/-- Embedding of getDependencyFromFile (src/src/create-search-index.ts):
split the path on "/"; paths with at most two segments or whose first
segment is not the types root are attributed to no package; otherwise the
second segment is the package name and the third segment, when non-empty
and matching the major-version directory pattern, gives the major version,
with "*" in every other case. -/
def getDependencyFromFile (file : String) : Option PackageId :=
  let parts := splitStr '/' file
  if parts.length ≤ 2 then
    none
  else
    let typesDirName := parts.getD 0 ""
    let name := parts.getD 1 ""
    let subDirName := parts.getD 2 ""
    if typesDirName ≠ typesDirectoryName then
      none
    else if subDirName ≠ "" then
      match parseMajorVersionFromDirectoryName subDirName with
      | some majorVersion => some ⟨name, DependencyVersion.exact majorVersion⟩
      | none => some ⟨name, DependencyVersion.star⟩
    else
      some ⟨name, DependencyVersion.star⟩

example : getDependencyFromFile "types/a/b/c" = some ⟨"a", DependencyVersion.star⟩ := by decide
example : getDependencyFromFile "types/a/v3/c" = some ⟨"a", DependencyVersion.exact 3⟩ := by decide
example : getDependencyFromFile "x" = none := by decide
example : getDependencyFromFile "types/a" = none := by decide
example : getDependencyFromFile "other/a/b" = none := by decide
example : getDependencyFromFile "types/a/" = some ⟨"a", DependencyVersion.star⟩ := by decide

/-- Claim C1: for every diff file path, the classifier attributes the path
to no package when it has at most two slash-separated segments or its
first segment is not the types root directory name; otherwise it yields
the package id whose name is the second segment and whose majorVersion is
the number parsed from the third segment when that segment matches the
major-version directory pattern, and "*" otherwise. -/
theorem c1_getDependencyFromFile_classification (file : String) :
    getDependencyFromFile file =
      if (splitStr '/' file).length ≤ 2 ∨ (splitStr '/' file).getD 0 "" ≠ typesDirectoryName then
        none
      else
        some ⟨(splitStr '/' file).getD 1 "",
          match parseMajorVersionFromDirectoryName ((splitStr '/' file).getD 2 "") with
          | some n => DependencyVersion.exact n
          | none => DependencyVersion.star⟩ := by
  by_cases h1 : (splitStr '/' file).length ≤ 2
  · simp [getDependencyFromFile, h1]
  · obtain ⟨a, b, c, t, hparts⟩ : ∃ a b c t, splitStr '/' file = a :: b :: c :: t := by
      match hp : splitStr '/' file with
      | [] => rw [hp] at h1; simp at h1
      | [a] => rw [hp] at h1; simp at h1
      | [a, b] => rw [hp] at h1; simp at h1
      | a :: b :: c :: t => exact ⟨a, b, c, t, rfl⟩
    by_cases h2 : a = typesDirectoryName
    · by_cases h3 : c = ""
      · have hparse : parseMajorVersionFromDirectoryName "" = none := rfl
        simp [getDependencyFromFile, hparts, h1, h2, h3, hparse]
      · simp only [getDependencyFromFile, hparts, h1, h2, h3]
        simp [h1, h3]
        cases parseMajorVersionFromDirectoryName c <;> simp
    · simp [getDependencyFromFile, hparts, h1, h2]

/-- Status letter of a name-status git diff line: Added, Deleted or
Modified. -/
inductive GitStatus where
  | A
  | D
  | M
  deriving DecidableEq, Repr

/-- GitDiff entry from src/src/create-search-index.ts. -/
structure GitDiff where
  status : GitStatus
  file : String
  deriving DecidableEq, Repr

/-- One update of the changedPackages map inside gitChanges: a JavaScript
Map from name to a Set of versions, rendered as an association list whose
keys keep first-insertion order and whose version lists keep
first-insertion order without duplicates. -/
def addChange (acc : List (String × List DependencyVersion)) (dep : PackageId) :
    List (String × List DependencyVersion) :=
  match acc with
  | [] => [(dep.name, [dep.majorVersion])]
  | (n, vs) :: rest =>
      if n = dep.name then
        (n, if dep.majorVersion ∈ vs then vs else vs ++ [dep.majorVersion]) :: rest
      else
        (n, vs) :: addChange rest dep

/-- The changedPackages map of gitChanges after processing all diff
entries. -/
def changedPackagesMap (diffs : List GitDiff) : List (String × List DependencyVersion) :=
  diffs.foldl
    (fun acc diff =>
      match getDependencyFromFile diff.file with
      | some dep => addChange acc dep
      | none => acc)
    []

/-- Flattening of the name-to-versions map into PackageId entries, as in
the final flatMap/mapIter expression of gitChanges. -/
def flattenChanges (acc : List (String × List DependencyVersion)) : List PackageId :=
  acc.flatMap (fun p => p.2.map (fun v => ⟨p.1, v⟩))

/-- Embedding of gitChanges (src/src/create-search-index.ts). -/
def gitChanges (diffs : List GitDiff) : List PackageId :=
  flattenChanges (changedPackagesMap diffs)


theorem flattenChanges_nil : flattenChanges [] = [] := rfl

theorem flattenChanges_cons (p : String × List DependencyVersion)
    (tl : List (String × List DependencyVersion)) :
    flattenChanges (p :: tl) = (p.2.map fun v => ⟨p.1, v⟩) ++ flattenChanges tl := by
  simp [flattenChanges]

theorem mem_flattenChanges (acc : List (String × List DependencyVersion)) (id : PackageId) :
    id ∈ flattenChanges acc ↔ ∃ p ∈ acc, p.1 = id.name ∧ id.majorVersion ∈ p.2 := by
  simp only [flattenChanges, List.mem_flatMap, List.mem_map]
  constructor
  · rintro ⟨p, hp, v, hv, rfl⟩
    exact ⟨p, hp, rfl, hv⟩
  · rintro ⟨p, hp, h1, h2⟩
    refine ⟨p, hp, id.majorVersion, h2, ?_⟩
    cases id with
    | mk nm mv =>
        simp only at h1
        subst h1
        rfl

theorem mem_flattenChanges_addChange (acc : List (String × List DependencyVersion))
    (dep id : PackageId) :
    id ∈ flattenChanges (addChange acc dep) ↔ id ∈ flattenChanges acc ∨ id = dep := by
  induction acc with
  | nil =>
      show id ∈ flattenChanges [(dep.name, [dep.majorVersion])] ↔ _
      rw [flattenChanges_cons, flattenChanges_nil]
      simp only [List.map_cons, List.map_nil, List.append_nil, List.mem_singleton,
        List.not_mem_nil, false_or]
  | cons hd tl ih =>
      obtain ⟨n, vs⟩ := hd
      by_cases hn : n = dep.name
      · subst hn
        by_cases hv : dep.majorVersion ∈ vs
        · have hstep : addChange ((dep.name, vs) :: tl) dep = (dep.name, vs) :: tl := by
            simp [addChange, hv]
          rw [hstep]
          constructor
          · exact Or.inl
          · rintro (h | rfl)
            · exact h
            · rw [mem_flattenChanges]
              exact ⟨(id.name, vs), List.mem_cons_self _ _, rfl, hv⟩
        · have hstep : addChange ((dep.name, vs) :: tl) dep =
              (dep.name, vs ++ [dep.majorVersion]) :: tl := by
            simp [addChange, hv]
          rw [hstep, flattenChanges_cons, flattenChanges_cons]
          simp only [List.map_append, List.map_cons, List.map_nil, List.mem_append,
            List.mem_singleton]
          constructor
          · rintro ((h | h) | h)
            · exact Or.inl (Or.inl h)
            · exact Or.inr h
            · exact Or.inl (Or.inr h)
          · rintro ((h | h) | rfl)
            · exact Or.inl (Or.inl h)
            · exact Or.inr h
            · exact Or.inl (Or.inr rfl)
      · have hstep : addChange ((n, vs) :: tl) dep = (n, vs) :: addChange tl dep := by
          simp [addChange, hn]
        rw [hstep, flattenChanges_cons, flattenChanges_cons]
        simp only [List.mem_append]
        rw [ih]
        constructor
        · rintro (h | h | h)
          · exact Or.inl (Or.inl h)
          · exact Or.inl (Or.inr h)
          · exact Or.inr h
        · rintro ((h | h) | h)
          · exact Or.inl h
          · exact Or.inr (Or.inl h)
          · exact Or.inr (Or.inr h)

/-- Well-formedness of the changedPackages map: keys are distinct and each
version list is duplicate free; this is exactly what the JavaScript Map
and Set structures give. -/
def GoodMap (acc : List (String × List DependencyVersion)) : Prop :=
  (acc.map Prod.fst).Nodup ∧ ∀ p ∈ acc, p.2.Nodup

theorem goodMap_nil : GoodMap [] := by
  constructor
  · simp
  · intro p hp; cases hp

theorem keys_addChange (acc : List (String × List DependencyVersion)) (dep : PackageId) :
    (addChange acc dep).map Prod.fst =
      if dep.name ∈ acc.map Prod.fst then acc.map Prod.fst
      else acc.map Prod.fst ++ [dep.name] := by
  induction acc with
  | nil => simp [addChange]
  | cons hd tl ih =>
      obtain ⟨n, vs⟩ := hd
      by_cases hn : n = dep.name
      · subst hn
        simp [addChange]
      · simp only [addChange, if_neg hn, List.map_cons, ih]
        by_cases hmem : dep.name ∈ tl.map Prod.fst
        · simp [hmem, Ne.symm hn]
        · simp [hmem, Ne.symm hn]

theorem goodMap_addChange (acc : List (String × List DependencyVersion)) (dep : PackageId)
    (h : GoodMap acc) : GoodMap (addChange acc dep) := by
  induction acc with
  | nil =>
      constructor
      · simp [addChange]
      · intro p hp
        simp only [addChange, List.mem_singleton] at hp
        subst hp
        exact List.nodup_singleton _
  | cons hd tl ih =>
      obtain ⟨n, vs⟩ := hd
      obtain ⟨hkeys, hvals⟩ := h
      rw [List.map_cons, List.nodup_cons] at hkeys
      obtain ⟨hn_notin, hkeys_tl⟩ := hkeys
      by_cases hn : n = dep.name
      · subst hn
        have hstep : addChange ((dep.name, vs) :: tl) dep =
            (dep.name, if dep.majorVersion ∈ vs then vs else vs ++ [dep.majorVersion]) :: tl := by
          simp [addChange]
        rw [hstep]
        constructor
        · rw [List.map_cons, List.nodup_cons]
          exact ⟨hn_notin, hkeys_tl⟩
        · intro p hp
          rcases List.mem_cons.mp hp with rfl | hp
          · by_cases hv : dep.majorVersion ∈ vs
            · simpa [hv] using hvals (dep.name, vs) (List.mem_cons_self _ _)
            · simp only [if_neg hv]
              rw [List.nodup_append]
              refine ⟨hvals (dep.name, vs) (List.mem_cons_self _ _), List.nodup_singleton _, ?_⟩
              intro a ha hb
              rw [List.mem_singleton] at hb
              subst hb
              exact hv ha
          · exact hvals p (List.mem_cons_of_mem _ hp)
      · have htl : GoodMap (addChange tl dep) :=
          ih ⟨hkeys_tl, fun p hp => hvals p (List.mem_cons_of_mem _ hp)⟩
        have hstep : addChange ((n, vs) :: tl) dep = (n, vs) :: addChange tl dep := by
          simp [addChange, hn]
        rw [hstep]
        constructor
        · rw [List.map_cons, List.nodup_cons]
          refine ⟨?_, htl.1⟩
          rw [keys_addChange]
          by_cases hmem : dep.name ∈ tl.map Prod.fst
          · simpa [hmem] using hn_notin
          · simp only [if_neg hmem, List.mem_append, List.mem_singleton]
            rintro (h2 | h2)
            · exact hn_notin h2
            · exact hn h2
        · intro p hp
          rcases List.mem_cons.mp hp with rfl | hp
          · exact hvals (n, vs) (List.mem_cons_self _ _)
          · exact htl.2 p hp

theorem name_mem_of_mem_flattenChanges (acc : List (String × List DependencyVersion))
    (id : PackageId) (h : id ∈ flattenChanges acc) : id.name ∈ acc.map Prod.fst := by
  obtain ⟨p, hp, h1, _⟩ := (mem_flattenChanges acc id).mp h
  rw [← h1]
  exact List.mem_map_of_mem Prod.fst hp

theorem nodup_flattenChanges (acc : List (String × List DependencyVersion))
    (h : GoodMap acc) : (flattenChanges acc).Nodup := by
  induction acc with
  | nil => simp [flattenChanges]
  | cons hd tl ih =>
      obtain ⟨n, vs⟩ := hd
      obtain ⟨hkeys, hvals⟩ := h
      rw [List.map_cons, List.nodup_cons] at hkeys
      rw [flattenChanges_cons, List.nodup_append]
      refine ⟨?_, ih ⟨hkeys.2, fun q hq => hvals q (List.mem_cons_of_mem _ hq)⟩, ?_⟩
      · refine List.Nodup.map ?_ (hvals (n, vs) (List.mem_cons_self _ _))
        intro a b hab
        have h2 := congrArg PackageId.majorVersion hab
        simpa using h2
      · intro id hid1 hid2
        have h1 : id.name = n := by
          simp only [List.mem_map] at hid1
          obtain ⟨v, _, rfl⟩ := hid1
          rfl
        have h2 : id.name ∈ tl.map Prod.fst := name_mem_of_mem_flattenChanges tl id hid2
        rw [h1] at h2
        exact hkeys.1 h2

theorem goodMap_changedPackagesMap (diffs : List GitDiff) :
    GoodMap (changedPackagesMap diffs) := by
  suffices h : ∀ (l : List GitDiff) (acc : List (String × List DependencyVersion)),
      GoodMap acc →
      GoodMap (l.foldl
        (fun acc diff =>
          match getDependencyFromFile diff.file with
          | some dep => addChange acc dep
          | none => acc) acc) by
    exact h diffs [] goodMap_nil
  intro l
  induction l with
  | nil => intro acc hacc; exact hacc
  | cons d ds ih =>
      intro acc hacc
      simp only [List.foldl_cons]
      cases getDependencyFromFile d.file with
      | none => exact ih acc hacc
      | some dep => exact ih _ (goodMap_addChange acc dep hacc)

theorem mem_gitChanges (diffs : List GitDiff) (id : PackageId) :
    id ∈ gitChanges diffs ↔ ∃ d ∈ diffs, getDependencyFromFile d.file = some id := by
  suffices h : ∀ (l : List GitDiff) (acc : List (String × List DependencyVersion)),
      id ∈ flattenChanges (l.foldl
        (fun acc diff =>
          match getDependencyFromFile diff.file with
          | some dep => addChange acc dep
          | none => acc) acc) ↔
      id ∈ flattenChanges acc ∨ ∃ d ∈ l, getDependencyFromFile d.file = some id by
    have h2 := h diffs []
    rw [flattenChanges_nil] at h2
    simpa [gitChanges, changedPackagesMap] using h2
  intro l
  induction l with
  | nil => intro acc; simp
  | cons d ds ih =>
      intro acc
      simp only [List.foldl_cons, List.mem_cons]
      cases hdep : getDependencyFromFile d.file with
      | none =>
          rw [ih]
          constructor
          · rintro (h | ⟨e, he, heq⟩)
            · exact Or.inl h
            · exact Or.inr ⟨e, Or.inr he, heq⟩
          · rintro (h | ⟨e, rfl | he, heq⟩)
            · exact Or.inl h
            · rw [hdep] at heq; cases heq
            · exact Or.inr ⟨e, he, heq⟩
      | some dep =>
          rw [ih, mem_flattenChanges_addChange]
          constructor
          · rintro ((h | rfl) | ⟨e, he, heq⟩)
            · exact Or.inl h
            · exact Or.inr ⟨d, Or.inl rfl, hdep⟩
            · exact Or.inr ⟨e, Or.inr he, heq⟩
          · rintro (h | ⟨e, rfl | he, heq⟩)
            · exact Or.inl (Or.inl h)
            · rw [hdep] at heq
              exact Or.inl (Or.inr (Option.some_injective _ heq).symm)
            · exact Or.inr ⟨e, he, heq⟩

/-- Claim C8: for every list of diff entries, the classifier output has
exactly one entry per distinct (name, majorVersion) pair touched (distinct
major versions of a name stay separate identities and are never merged),
and contains no entry for paths outside the recognized root or shallower
than two further segments: membership is exactly attribution of some diff
path, and the output is duplicate free. -/
theorem c8_gitChanges_distinct_pairs (diffs : List GitDiff) :
    (gitChanges diffs).Nodup ∧
      ∀ id : PackageId, id ∈ gitChanges diffs ↔
        ∃ d ∈ diffs, getDependencyFromFile d.file = some id := by
  constructor
  · exact nodup_flattenChanges _ (goodMap_changedPackagesMap diffs)
  · intro id
    exact mem_gitChanges diffs id

/-- Modelled from the spec: the Semver class of lib/versions is not in the
sources; the spec and the raw-data comment fix the format major.minor.patch
with a strict semantic-version order. -/
structure Semver where
  major : Nat
  minor : Nat
  patch : Nat
  deriving DecidableEq, Repr

/-- Version string "major.minor.patch" of a Semver. -/
def Semver.versionString (v : Semver) : String :=
  toString v.major ++ "." ++ toString v.minor ++ "." ++ toString v.patch

/-- Modelled from the spec: strict greater-than on semantic versions,
lexicographic on (major, minor, patch). -/
def Semver.greaterThan (a b : Semver) : Bool :=
  decide (a.major > b.major ∨ (a.major = b.major ∧
    (a.minor > b.minor ∨ (a.minor = b.minor ∧ a.patch > b.patch))))

/-- Decimal numeral parser: all digits and non-empty. -/
def parseNatDigits (l : List Char) : Option Nat :=
  if l ≠ [] ∧ l.all Char.isDigit then some (digitsToNat l) else none

/-- Modelled from the spec: Semver.parse of a "major.minor.patch" string;
parse failures (the class asserts the format) are rendered as none. -/
def Semver.parse (s : String) : Option Semver :=
  match splitStr '.' s with
  | [a, b, c] =>
      match parseNatDigits a.data, parseNatDigits b.data, parseNatDigits c.data with
      | some major, some minor, some patch => some ⟨major, minor, patch⟩
      | _, _, _ => none
  | _ => none

example : Semver.parse "1.2.3" = some ⟨1, 2, 3⟩ := by decide
example : Semver.parse "1.2" = none := by decide
example : Semver.greaterThan ⟨1, 2, 3⟩ ⟨1, 2, 2⟩ = true := by decide
example : Semver.greaterThan ⟨1, 2, 3⟩ ⟨1, 2, 3⟩ = false := by decide

/-- Scope for published typings packages (settings.scopeName). -/
def scopeName : String := "types"

/-- fullNpmName from lib/packages: "@types/foo" for a package "foo"
(suffixed Of since the accessor below shares the source name). -/
def fullNpmNameOf (packageName : String) : String :=
  "@" ++ scopeName ++ "/" ++ packageName

/-- Version-level npm info kept in the cache (lib/npm-client). -/
structure NpmInfoVersion where
  typesPublisherContentHash : Option String
  deprecated : Option String
  deriving DecidableEq, Repr

/-- Processed npm registry info (lib/npm-client): dist tags, published
versions and times, each a string-keyed map rendered as an association
list. -/
structure NpmInfo where
  distTags : List (String × String)
  versions : List (String × NpmInfoVersion)
  time : List (String × String)
  deriving DecidableEq, Repr

/-- NotNeededPackage from lib/packages: name is the typings package name
and version the parsed asOfVersion; the raw constructor asserts the other
fields are present. -/
structure NotNeededPackage where
  libraryName : String
  name : String
  sourceRepoURL : String
  version : Semver
  deriving DecidableEq, Repr

/-- fullNpmName accessor of PackageBase specialized to NotNeededPackage. -/
def NotNeededPackage.fullNpmName (p : NotNeededPackage) : String :=
  fullNpmNameOf p.name

/-- Embedding of checkNotNeededPackage (src/src/create-search-index.ts):
the assertDefined calls and assert statements are rendered as the matches
and conditionals below, in source order; a raised error carries the
interpolated message. -/
def checkNotNeededPackage (unneeded : NotNeededPackage) (source typings : Option NpmInfo) :
    Except String Unit :=
  match source with
  | none => Except.error ("The entry for " ++ unneeded.fullNpmName ++
      " in notNeededPackages.json has libraryName " ++ unneeded.libraryName ++
      ", but there is no npm package with this name. " ++
      "Unneeded packages have to be replaced with a package on npm.")
  | some source =>
    match typings with
    | none => Except.error ("Unexpected error: @types package not found for " ++
        unneeded.fullNpmName)
    | some typings =>
      match typings.distTags.lookup "latest" with
      | none => Except.error ("Unexpected error: " ++ unneeded.fullNpmName ++
          " is missing the latest tag.")
      | some latestStr =>
        match Semver.parse latestStr with
        | none => Except.error ("Unexpected error: could not parse " ++ latestStr)
        | some latestTypings =>
          if unneeded.version.greaterThan latestTypings then
            if (source.versions.map Prod.fst).contains unneeded.version.versionString then
              Except.ok ()
            else
              Except.error ("The specified version " ++ unneeded.version.versionString ++
                " of " ++ unneeded.libraryName ++ " is not on npm.")
          else
            Except.error ("The specified version " ++ unneeded.version.versionString ++
              " of " ++ unneeded.libraryName ++
              " must be newer than the version it is supposed to replace, " ++
              latestTypings.versionString ++ " of " ++ unneeded.fullNpmName ++ ".")

/-- Claim C4: checkNotNeededPackage succeeds exactly when both npm infos
are present, the @types package has a parseable latest tag, the not-needed
asOfVersion is strictly greater than that latest version, and that
asOfVersion occurs among the source package published versions; in every
other case it raises an error. -/
theorem c4_checkNotNeededPackage_conditions (u : NotNeededPackage) (src ty : Option NpmInfo) :
    checkNotNeededPackage u src ty = Except.ok () ↔
      ∃ s t latestStr latest,
        src = some s ∧ ty = some t ∧
        t.distTags.lookup "latest" = some latestStr ∧
        Semver.parse latestStr = some latest ∧
        u.version.greaterThan latest = true ∧
        (s.versions.map Prod.fst).contains u.version.versionString = true := by
  cases src with
  | none => simp [checkNotNeededPackage]
  | some s =>
    cases ty with
    | none => simp [checkNotNeededPackage]
    | some t =>
      cases hl : t.distTags.lookup "latest" with
      | none => simp [checkNotNeededPackage, hl]
      | some latestStr =>
        cases hp : Semver.parse latestStr with
        | none => simp [checkNotNeededPackage, hl, hp]
        | some latest =>
          by_cases hg : u.version.greaterThan latest = true
          · by_cases hc : (s.versions.map Prod.fst).contains u.version.versionString = true
            · simp [checkNotNeededPackage, hl, hp, hg, hc]
            · simp [checkNotNeededPackage, hl, hp, hg, hc]
          · simp [checkNotNeededPackage, hl, hp, hg]

/-- TypingsDataRaw from lib/packages, restricted to the fields the claims
touch (authors, file lists and the TypeScript version bookkeeping play no
role in them). -/
structure TypingsDataRaw where
  libraryName : String
  typingsPackageName : String
  sourceRepoURL : String
  dependencies : List (String × DependencyVersion)
  libraryMajorVersion : Nat
  libraryMinorVersion : Nat
  globals : List String
  declaredModules : List String
  contentHash : String
  deriving DecidableEq, Repr

/-- TypingsData from lib/packages: raw data plus the isLatest flag chosen
by the TypingsVersions constructor. -/
structure TypingsData where
  data : TypingsDataRaw
  isLatest : Bool
  deriving DecidableEq, Repr

/-- Name accessor of PackageBase: the typings package name. -/
def TypingsData.name (t : TypingsData) : String :=
  t.data.typingsPackageName

/-- Major accessor of TypingsData. -/
def TypingsData.major (t : TypingsData) : Nat :=
  t.data.libraryMajorVersion

/-- subDirectoryPath of TypingsData: the package name for the latest
version, name/vN for an older major version. -/
def TypingsData.subDirectoryPath (t : TypingsData) : String :=
  if t.isLatest then t.name else t.name ++ "/v" ++ toString t.data.libraryMajorVersion

/-- Maximum of the numeric version keys, as Math.max over the parsed
object keys; 0 stands in for the minus infinity Math.max yields on an
empty entry, which cannot arise from a parsed definitions file. -/
def maxVersion : List Nat → Nat
  | [] => 0
  | v :: vs => vs.foldl Nat.max v

/-- TypingsVersions from lib/packages: the per-version map and the cached
maximum key. -/
structure TypingsVersions where
  map : List (Nat × TypingsData)
  latest : Nat
  deriving DecidableEq, Repr

/-- Embedding of the TypingsVersions constructor: latest is the maximum
key and each record is built with isLatest set exactly on the maximum. -/
def TypingsVersions.ofRaw (data : List (Nat × TypingsDataRaw)) : TypingsVersions :=
  let latest := maxVersion (data.map Prod.fst)
  { map := data.map (fun p => (p.1, ⟨p.2, decide (p.1 = latest)⟩)), latest := latest }

/-- getExact of TypingsVersions; the throw on a missing version is
rendered as none. -/
def TypingsVersions.getExact (tv : TypingsVersions) (majorVersion : Nat) : Option TypingsData :=
  tv.map.lookup majorVersion

/-- getLatest of TypingsVersions. -/
def TypingsVersions.getLatest (tv : TypingsVersions) : Option TypingsData :=
  tv.getExact tv.latest

/-- get of TypingsVersions: the wildcard resolves through getLatest at
query time, an exact version through getExact. -/
def TypingsVersions.get (tv : TypingsVersions) : DependencyVersion → Option TypingsData
  | DependencyVersion.star => tv.getLatest
  | DependencyVersion.exact v => tv.getExact v

/-- AllPackages from lib/packages: name-keyed typings versions plus the
not-needed list. -/
structure AllPackages where
  data : List (String × TypingsVersions)
  notNeeded : List NotNeededPackage
  deriving DecidableEq, Repr

/-- tryGetTypingsData of AllPackages; exceptions from a missing exact
version surface as none. -/
def AllPackages.tryGetTypingsData (ap : AllPackages) (id : PackageId) : Option TypingsData :=
  match ap.data.lookup id.name with
  | none => none
  | some versions => versions.get id.majorVersion

/-- hasTypingFor of AllPackages. -/
def AllPackages.hasTypingFor (ap : AllPackages) (dep : PackageId) : Bool :=
  (ap.tryGetTypingsData dep).isSome

/-- getLatestVersion of AllPackages; the throw on an unknown name is
rendered as none. -/
def AllPackages.getLatestVersion (ap : AllPackages) (packageName : String) : Option TypingsData :=
  match ap.data.lookup packageName with
  | none => none
  | some versions => versions.getLatest

/-- getNotNeededPackage of AllPackages: linear search of the not-needed
list by name, as in getAnyPackage. -/
def AllPackages.getNotNeededPackage (ap : AllPackages) (name : String) :
    Option NotNeededPackage :=
  ap.notNeeded.find? (fun p => p.name == name)

theorem foldl_max_mem (vs : List Nat) (v : Nat) :
    vs.foldl Nat.max v = v ∨ vs.foldl Nat.max v ∈ vs := by
  induction vs generalizing v with
  | nil => simp
  | cons a as ih =>
      simp only [List.foldl_cons]
      rcases ih (Nat.max v a) with h | h
      · rcases Nat.le_total v a with hle | hle
        · have hm : Nat.max v a = a := Nat.max_eq_right hle
          rw [hm] at h ⊢
          exact Or.inr (by rw [h]; exact List.mem_cons_self _ _)
        · have hm : Nat.max v a = v := Nat.max_eq_left hle
          rw [hm] at h ⊢
          exact Or.inl h
      · exact Or.inr (List.mem_cons_of_mem _ h)

theorem le_foldl_max (vs : List Nat) (v : Nat) :
    v ≤ vs.foldl Nat.max v ∧ ∀ x ∈ vs, x ≤ vs.foldl Nat.max v := by
  induction vs generalizing v with
  | nil =>
      refine ⟨Nat.le_refl v, ?_⟩
      intro x hx
      cases hx
  | cons a as ih =>
      obtain ⟨h1, h2⟩ := ih (Nat.max v a)
      simp only [List.foldl_cons]
      refine ⟨Nat.le_trans (Nat.le_max_left v a) h1, ?_⟩
      intro x hx
      rcases List.mem_cons.mp hx with rfl | hx
      · exact Nat.le_trans (Nat.le_max_right v x) h1
      · exact h2 x hx

theorem maxVersion_mem (l : List Nat) (h : l ≠ []) : maxVersion l ∈ l := by
  cases l with
  | nil => exact absurd rfl h
  | cons v vs =>
      rcases foldl_max_mem vs v with h2 | h2
      · rw [maxVersion, h2]
        exact List.mem_cons_self _ _
      · exact List.mem_cons_of_mem _ h2

theorem le_maxVersion (l : List Nat) (x : Nat) (h : x ∈ l) : x ≤ maxVersion l := by
  cases l with
  | nil => cases h
  | cons v vs =>
      rcases List.mem_cons.mp h with rfl | h2
      · exact (le_foldl_max vs x).1
      · exact (le_foldl_max vs v).2 x h2

theorem lookup_map_value {α β γ : Type} [BEq α] [LawfulBEq α]
    (l : List (α × β)) (f : α → β → γ) (k : α) :
    (l.map (fun p => (p.1, f p.1 p.2))).lookup k = (l.lookup k).map (f k) := by
  induction l with
  | nil => rfl
  | cons hd tl ih =>
      obtain ⟨a, b⟩ := hd
      by_cases hk : a = k
      · subst hk
        simp [List.lookup]
      · have hbeq : (k == a) = false := by
          rw [beq_eq_false_iff_ne]
          exact fun h2 => hk h2.symm
        simp [List.lookup, hbeq, ih]

theorem lookup_isSome_of_mem {α β : Type} [BEq α] [LawfulBEq α]
    (l : List (α × β)) (k : α) (h : k ∈ l.map Prod.fst) :
    ∃ b, l.lookup k = some b := by
  induction l with
  | nil => cases h
  | cons hd tl ih =>
      obtain ⟨a, b⟩ := hd
      by_cases hk : a = k
      · subst hk
        exact ⟨b, by simp [List.lookup]⟩
      · have hbeq : (k == a) = false := by
          rw [beq_eq_false_iff_ne]
          exact fun h2 => hk h2.symm
        simp only [List.map_cons, List.mem_cons] at h
        rcases h with h | h
        · exact absurd h.symm hk
        · obtain ⟨c, hc⟩ := ih h
          exact ⟨c, by simp [List.lookup, hbeq, hc]⟩

theorem mem_of_lookup_eq_some {α β : Type} [BEq α] [LawfulBEq α]
    (l : List (α × β)) (k : α) (b : β) (h : l.lookup k = some b) : (k, b) ∈ l := by
  induction l with
  | nil => cases h
  | cons hd tl ih =>
      obtain ⟨a, c⟩ := hd
      by_cases hk : a = k
      · subst hk
        simp only [List.lookup, beq_self_eq_true] at h
        cases h
        exact List.mem_cons_self _ _
      · have hbeq : (k == a) = false := by
          rw [beq_eq_false_iff_ne]
          exact fun h2 => hk h2.symm
        simp only [List.lookup, hbeq] at h
        exact List.mem_cons_of_mem _ (ih h)

theorem eq_of_mem_of_keys_nodup {α β : Type} (l : List (α × β))
    (hnd : (l.map Prod.fst).Nodup) (p q : α × β)
    (hp : p ∈ l) (hq : q ∈ l) (hk : p.1 = q.1) : p = q := by
  induction l with
  | nil => cases hp
  | cons hd tl ih =>
      rw [List.map_cons, List.nodup_cons] at hnd
      rcases List.mem_cons.mp hp with rfl | hp2
      · rcases List.mem_cons.mp hq with rfl | hq2
        · rfl
        · exact absurd (hk ▸ List.mem_map_of_mem Prod.fst hq2) hnd.1
      · rcases List.mem_cons.mp hq with rfl | hq2
        · exact absurd (hk ▸ List.mem_map_of_mem Prod.fst hp2) hnd.1
        · exact ih hnd.2 hp2 hq2

theorem ofRaw_latest (data : List (Nat × TypingsDataRaw)) :
    (TypingsVersions.ofRaw data).latest = maxVersion (data.map Prod.fst) := rfl

theorem ofRaw_map (data : List (Nat × TypingsDataRaw)) :
    (TypingsVersions.ofRaw data).map =
      data.map (fun p => (p.1, ⟨p.2, decide (p.1 = maxVersion (data.map Prod.fst))⟩)) := rfl

theorem ofRaw_keys (data : List (Nat × TypingsDataRaw)) :
    (TypingsVersions.ofRaw data).map.map Prod.fst = data.map Prod.fst := by
  rw [ofRaw_map, List.map_map]
  rfl

/-- Claim C3: for every catalog entry with a non-empty set of major
versions (and the distinct keys a parsed JSON object guarantees), latest
is the numeric maximum of the versions present, getLatest returns the
record stored under that maximum with isLatest true, isLatest marks
exactly that record, a wildcard lookup returns the same record as
getLatest, and the catalog-level accessors agree with it. -/
theorem c3_getLatest_is_max (data : List (Nat × TypingsDataRaw))
    (hne : data ≠ []) (hnd : (data.map Prod.fst).Nodup) :
    ((TypingsVersions.ofRaw data).latest ∈ data.map Prod.fst ∧
      ∀ k ∈ data.map Prod.fst, k ≤ (TypingsVersions.ofRaw data).latest) ∧
    (∃ raw, data.lookup (TypingsVersions.ofRaw data).latest = some raw ∧
      (TypingsVersions.ofRaw data).getLatest = some ⟨raw, true⟩) ∧
    (∀ p ∈ (TypingsVersions.ofRaw data).map,
      p.2.isLatest = true ↔ p.1 = (TypingsVersions.ofRaw data).latest) ∧
    (∀ p q, p ∈ (TypingsVersions.ofRaw data).map → q ∈ (TypingsVersions.ofRaw data).map →
      p.2.isLatest = true → q.2.isLatest = true → p = q) ∧
    (TypingsVersions.ofRaw data).get DependencyVersion.star =
      (TypingsVersions.ofRaw data).getLatest ∧
    (∀ (ap : AllPackages) (nm : String),
      ap.data.lookup nm = some (TypingsVersions.ofRaw data) →
        ap.getLatestVersion nm = (TypingsVersions.ofRaw data).getLatest ∧
        ap.tryGetTypingsData ⟨nm, DependencyVersion.star⟩ =
          (TypingsVersions.ofRaw data).getLatest) := by
  have hkeys_ne : data.map Prod.fst ≠ [] := by
    intro h
    exact hne (List.map_eq_nil_iff.mp h)
  have hmem : (TypingsVersions.ofRaw data).latest ∈ data.map Prod.fst := by
    rw [ofRaw_latest]
    exact maxVersion_mem _ hkeys_ne
  refine ⟨⟨hmem, ?_⟩, ?_, ?_, ?_, rfl, ?_⟩
  · intro k hk
    rw [ofRaw_latest]
    exact le_maxVersion _ k hk
  · obtain ⟨raw, hraw⟩ := lookup_isSome_of_mem data _ hmem
    rw [ofRaw_latest] at hraw
    refine ⟨raw, by rw [ofRaw_latest]; exact hraw, ?_⟩
    have hlm := lookup_map_value data
      (fun (k : Nat) (b : TypingsDataRaw) =>
        (⟨b, decide (k = maxVersion (data.map Prod.fst))⟩ : TypingsData))
      (maxVersion (data.map Prod.fst))
    have h2 : (TypingsVersions.ofRaw data).getLatest
        = (data.lookup (maxVersion (data.map Prod.fst))).map
          (fun b => (⟨b, decide (maxVersion (data.map Prod.fst) =
            maxVersion (data.map Prod.fst))⟩ : TypingsData)) := hlm
    rw [h2, hraw]
    simp
  · intro p hp
    rw [ofRaw_map] at hp
    obtain ⟨q, hq, rfl⟩ := List.mem_map.mp hp
    rw [ofRaw_latest]
    simp
  · intro p q hp hq hpl hql
    have hkn : ((TypingsVersions.ofRaw data).map.map Prod.fst).Nodup := by
      rw [ofRaw_keys]
      exact hnd
    apply eq_of_mem_of_keys_nodup _ hkn p q hp hq
    have h1 : p.1 = (TypingsVersions.ofRaw data).latest := by
      rw [ofRaw_map] at hp
      obtain ⟨pq, hpq, rfl⟩ := List.mem_map.mp hp
      simp only [decide_eq_true_eq] at hpl
      rw [ofRaw_latest]
      exact hpl
    have h2 : q.1 = (TypingsVersions.ofRaw data).latest := by
      rw [ofRaw_map] at hq
      obtain ⟨qq, hqq, rfl⟩ := List.mem_map.mp hq
      simp only [decide_eq_true_eq] at hql
      rw [ofRaw_latest]
      exact hql
    rw [h1, h2]
  · intro ap nm hlook
    constructor
    · show (match ap.data.lookup nm with
        | none => none
        | some versions => versions.getLatest) = _
      rw [hlook]
    · show (match ap.data.lookup nm with
        | none => none
        | some versions => versions.get DependencyVersion.star) = _
      rw [hlook]
      rfl

/-- Sample raw record for the C3 witness. -/
def sampleRaw (v : Nat) : TypingsDataRaw :=
  { libraryName := "Sample"
    typingsPackageName := "sample"
    sourceRepoURL := "https://github.com/DefinitelyTyped"
    dependencies := []
    libraryMajorVersion := v
    libraryMinorVersion := 0
    globals := []
    declaredModules := []
    contentHash := "hash" }

/-- Sample versions object for the C3 witness: majors 1, 3 and 2. -/
def sampleVersionsData : List (Nat × TypingsDataRaw) :=
  [(1, sampleRaw 1), (3, sampleRaw 3), (2, sampleRaw 2)]

/-- Witness for C3 at a concrete three-version catalog entry. -/
theorem c3_getLatest_is_max_witness :
    ((TypingsVersions.ofRaw sampleVersionsData).latest ∈ sampleVersionsData.map Prod.fst ∧
      ∀ k ∈ sampleVersionsData.map Prod.fst,
        k ≤ (TypingsVersions.ofRaw sampleVersionsData).latest) ∧
    (∃ raw, sampleVersionsData.lookup (TypingsVersions.ofRaw sampleVersionsData).latest =
        some raw ∧
      (TypingsVersions.ofRaw sampleVersionsData).getLatest = some ⟨raw, true⟩) ∧
    (∀ p ∈ (TypingsVersions.ofRaw sampleVersionsData).map,
      p.2.isLatest = true ↔ p.1 = (TypingsVersions.ofRaw sampleVersionsData).latest) ∧
    (∀ p q, p ∈ (TypingsVersions.ofRaw sampleVersionsData).map →
      q ∈ (TypingsVersions.ofRaw sampleVersionsData).map →
      p.2.isLatest = true → q.2.isLatest = true → p = q) ∧
    (TypingsVersions.ofRaw sampleVersionsData).get DependencyVersion.star =
      (TypingsVersions.ofRaw sampleVersionsData).getLatest ∧
    (∀ (ap : AllPackages) (nm : String),
      ap.data.lookup nm = some (TypingsVersions.ofRaw sampleVersionsData) →
        ap.getLatestVersion nm = (TypingsVersions.ofRaw sampleVersionsData).getLatest ∧
        ap.tryGetTypingsData ⟨nm, DependencyVersion.star⟩ =
          (TypingsVersions.ofRaw sampleVersionsData).getLatest) :=
  c3_getLatest_is_max sampleVersionsData (by decide) (by decide)

/-- assertDefined from util/util: a defined value, or the given message
thrown, rendered as an Except. -/
def assertDefined {α : Type} (x : Option α) (msg : String) : Except String α :=
  match x with
  | some v => Except.ok v
  | none => Except.error msg

/-- First-occurrence insertion, as the JavaScript Set constructor adds
elements. -/
def insertNew (acc : List String) (n : String) : List String :=
  if n ∈ acc then acc else acc ++ [n]

/-- Deduplication keeping the first occurrence of each element, as the
JavaScript Set built over the mapped diff names. -/
def firstDedup (l : List String) : List String :=
  l.foldl insertNew []

/-- The eager map over deleted diff entries inside getNotNeededPackages:
every deleted file must be attributable to a package, with the
assertDefined throw rendered as an error. -/
def mapParsedDeleted : List GitDiff → Except String (List PackageId)
  | [] => Except.ok []
  | d :: ds =>
      match assertDefined (getDependencyFromFile d.file)
          ("Unexpected file deleted: " ++ d.file) with
      | Except.error m => Except.error m
      | Except.ok dep =>
          match mapParsedDeleted ds with
          | Except.error m => Except.error m
          | Except.ok deps => Except.ok (dep :: deps)

/-- The deleted-package name set of getNotNeededPackages
(src/src/create-search-index.ts): names of the status-D entries, each
required to parse, deduplicated keeping first occurrences. -/
def deletedPackageNames (diffs : List GitDiff) : Except String (List String) :=
  match mapParsedDeleted (diffs.filter (fun d => d.status == GitStatus.D)) with
  | Except.error m => Except.error m
  | Except.ok deps => Except.ok (firstDedup (deps.map PackageId.name))

/-- One consistency validation of a deleted name, as the body of the
mapIter inside getNotNeededPackages: a name that still has typings is an
error, a name without a not-needed entry is an error, otherwise the
not-needed entry is produced. -/
def validateDeleted (ap : AllPackages) (name : String) : Except String NotNeededPackage :=
  if ap.hasTypingFor ⟨name, DependencyVersion.star⟩ then
    Except.error ("Please delete all files in " ++ name ++
      " when adding it to notNeededPackages.json.")
  else
    assertDefined (ap.getNotNeededPackage name)
      ("Deleted package " ++ name ++ " is not in notNeededPackages.json.")

/-- One pass of the runTests validation loop over a deleted name: the
consistency checks of the lazily produced entry run first, then the npm
lookups and checkNotNeededPackage on it; npm models the registry
responses. -/
def checkDeleted (ap : AllPackages) (npm : String → Option NpmInfo) (name : String) :
    Except String Unit :=
  match validateDeleted ap name with
  | Except.error m => Except.error m
  | Except.ok deleted =>
      checkNotNeededPackage deleted (npm deleted.libraryName) (npm deleted.fullNpmName)

/-- The for loop of runTests driving the validation iterable in order. -/
def checkAllDeleted (ap : AllPackages) (npm : String → Option NpmInfo) :
    List String → Except String Unit
  | [] => Except.ok ()
  | name :: rest =>
      match checkDeleted ap npm name with
      | Except.error m => Except.error m
      | Except.ok _ => checkAllDeleted ap npm rest

/-- Expensive phases of a runTests run. -/
inductive Phase where
  | installing
  | running
  deriving DecidableEq, Repr

/-- Phase skeleton of runTests (src/src/create-search-index.ts): the
removal validation runs only when some diff entry is for
notNeededPackages.json, and an error in it stops the run before the
install and test phases; the result pairs the expensive phases reached
with the raised error, if any. -/
def runTestsPhases (ap : AllPackages) (diffs : List GitDiff)
    (npm : String → Option NpmInfo) : List Phase × Option String :=
  if diffs.any (fun d => d.file == "notNeededPackages.json") then
    match deletedPackageNames diffs with
    | Except.error m => ([], some m)
    | Except.ok names =>
        match checkAllDeleted ap npm names with
        | Except.error m => ([], some m)
        | Except.ok _ => ([Phase.installing, Phase.running], none)
  else
    ([Phase.installing, Phase.running], none)

/-- A deleted name violating the removal consistency conditions: it still
has live typings in the catalog, or it has no not-needed entry. -/
def violatesRemoval (ap : AllPackages) (name : String) : Prop :=
  ap.hasTypingFor ⟨name, DependencyVersion.star⟩ = true ∨
    ap.getNotNeededPackage name = none

theorem validateDeleted_error_of_violates (ap : AllPackages) (name : String)
    (h : violatesRemoval ap name) :
    ∃ pre post, validateDeleted ap name = Except.error (pre ++ name ++ post) := by
  by_cases ht : ap.hasTypingFor ⟨name, DependencyVersion.star⟩ = true
  · exact ⟨"Please delete all files in ", " when adding it to notNeededPackages.json.",
      by simp [validateDeleted, ht]⟩
  · rcases h with h | h
    · exact absurd h ht
    · refine ⟨"Deleted package ", " is not in notNeededPackages.json.", ?_⟩
      have hb : ap.hasTypingFor ⟨name, DependencyVersion.star⟩ = false := by
        cases hx : ap.hasTypingFor ⟨name, DependencyVersion.star⟩
        · rfl
        · exact absurd hx ht
      simp [validateDeleted, hb, assertDefined, h]

theorem checkAllDeleted_error_of_violates (ap : AllPackages)
    (npm : String → Option NpmInfo) (names : List String) (name : String)
    (hmem : name ∈ names) (h : violatesRemoval ap name) :
    ∃ m, checkAllDeleted ap npm names = Except.error m := by
  induction names with
  | nil => cases hmem
  | cons hd tl ih =>
      rcases List.mem_cons.mp hmem with rfl | hmem2
      · obtain ⟨pre, post, herr⟩ := validateDeleted_error_of_violates ap name h
        exact ⟨pre ++ name ++ post, by simp [checkAllDeleted, checkDeleted, herr]⟩
      · cases hc : checkDeleted ap npm hd with
        | error m => exact ⟨m, by simp [checkAllDeleted, hc]⟩
        | ok u =>
            obtain ⟨m, hm⟩ := ih hmem2
            exact ⟨m, by simp [checkAllDeleted, hc, hm]⟩

theorem checkAllDeleted_first_error (ap : AllPackages)
    (npm : String → Option NpmInfo) (name : String) (rest : List String)
    (h : violatesRemoval ap name) :
    ∃ pre post, checkAllDeleted ap npm (name :: rest) = Except.error (pre ++ name ++ post) := by
  obtain ⟨pre, post, herr⟩ := validateDeleted_error_of_violates ap name h
  exact ⟨pre, post, by simp [checkAllDeleted, checkDeleted, herr]⟩

theorem mapParsedDeleted_mem (l : List GitDiff) (deps : List PackageId)
    (h : mapParsedDeleted l = Except.ok deps) :
    ∀ d ∈ l, ∃ dep, getDependencyFromFile d.file = some dep ∧ dep ∈ deps := by
  induction l generalizing deps with
  | nil =>
      intro d hd
      cases hd
  | cons a as ih =>
      intro d hd
      unfold mapParsedDeleted at h
      cases hp : getDependencyFromFile a.file with
      | none =>
          rw [hp] at h
          simp [assertDefined] at h
      | some dep0 =>
          rw [hp] at h
          simp only [assertDefined] at h
          cases hm : mapParsedDeleted as with
          | error m =>
              rw [hm] at h
              cases h
          | ok deps0 =>
              rw [hm] at h
              cases h
              rcases List.mem_cons.mp hd with rfl | hd2
              · exact ⟨dep0, hp, List.mem_cons_self _ _⟩
              · obtain ⟨dep, h1, h2⟩ := ih deps0 hm d hd2
                exact ⟨dep, h1, List.mem_cons_of_mem _ h2⟩

theorem mem_insertNew (acc : List String) (n x : String) :
    x ∈ insertNew acc n ↔ x ∈ acc ∨ x = n := by
  unfold insertNew
  by_cases h : n ∈ acc
  · simp only [if_pos h]
    constructor
    · exact Or.inl
    · rintro (hx | rfl)
      · exact hx
      · exact h
  · simp [if_neg h]

theorem mem_firstDedup (l : List String) (x : String) :
    x ∈ firstDedup l ↔ x ∈ l := by
  suffices h : ∀ (l2 : List String) (acc : List String),
      x ∈ l2.foldl insertNew acc ↔ x ∈ acc ∨ x ∈ l2 by
    simpa [firstDedup] using h l []
  intro l2
  induction l2 with
  | nil => intro acc; simp
  | cons a as ih =>
      intro acc
      simp only [List.foldl_cons, List.mem_cons]
      rw [ih, mem_insertNew]
      constructor
      · rintro ((h | rfl) | h)
        · exact Or.inl h
        · exact Or.inr (Or.inl rfl)
        · exact Or.inr (Or.inr h)
      · rintro (h | h | h)
        · exact Or.inl (Or.inl h)
        · exact Or.inl (Or.inr h)
        · exact Or.inr h

theorem name_mem_deletedPackageNames (diffs : List GitDiff) (names : List String)
    (hok : deletedPackageNames diffs = Except.ok names)
    (d : GitDiff) (hd : d ∈ diffs) (hstatus : d.status = GitStatus.D)
    (dep : PackageId) (hdep : getDependencyFromFile d.file = some dep) :
    dep.name ∈ names := by
  unfold deletedPackageNames at hok
  cases hm : mapParsedDeleted (diffs.filter (fun d => d.status == GitStatus.D)) with
  | error m =>
      rw [hm] at hok
      cases hok
  | ok deps =>
      rw [hm] at hok
      cases hok
      have hdf : d ∈ diffs.filter (fun d => d.status == GitStatus.D) := by
        rw [List.mem_filter]
        exact ⟨hd, by simp [hstatus]⟩
      obtain ⟨dep2, hdep2, hmem2⟩ := mapParsedDeleted_mem _ _ hm d hdf
      rw [hdep] at hdep2
      cases hdep2
      rw [mem_firstDedup]
      exact List.mem_map_of_mem PackageId.name hmem2

/-- Claim C2 as amended: when the diff contains an entry for
notNeededPackages.json, any status-D entry whose deleted package name
still has live typings in the catalog or has no matching
not-needed-registry entry makes the run raise an error before any
dependency installation or test execution starts; and whenever the first
deleted name is such a violator, the raised error is the consistency
error naming that package. -/
theorem c2_removal_validation_guarded (ap : AllPackages) (diffs : List GitDiff)
    (npm : String → Option NpmInfo)
    (hguard : diffs.any (fun d => d.file == "notNeededPackages.json") = true) :
    (∀ d ∈ diffs, d.status = GitStatus.D →
      ∀ dep, getDependencyFromFile d.file = some dep →
        violatesRemoval ap dep.name →
        ∃ m, runTestsPhases ap diffs npm = ([], some m)) ∧
    (∀ name rest, deletedPackageNames diffs = Except.ok (name :: rest) →
      violatesRemoval ap name →
      ∃ pre post, runTestsPhases ap diffs npm = ([], some (pre ++ name ++ post))) := by
  constructor
  · intro d hd hstatus dep hdep hviol
    unfold runTestsPhases
    rw [hguard]
    simp only [if_true]
    cases hnames : deletedPackageNames diffs with
    | error m => exact ⟨m, rfl⟩
    | ok names =>
        have hmem := name_mem_deletedPackageNames diffs names hnames d hd hstatus dep hdep
        obtain ⟨m, hm⟩ := checkAllDeleted_error_of_violates ap npm names dep.name hmem hviol
        refine ⟨m, ?_⟩
        show (match checkAllDeleted ap npm names with
          | Except.error m => (([] : List Phase), some m)
          | Except.ok _ => ([Phase.installing, Phase.running], none)) = ([], some m)
        rw [hm]
  · intro name rest hnames hviol
    obtain ⟨pre, post, herr⟩ := checkAllDeleted_first_error ap npm name rest hviol
    refine ⟨pre, post, ?_⟩
    unfold runTestsPhases
    rw [hguard]
    simp only [if_true]
    rw [hnames]
    show (match checkAllDeleted ap npm (name :: rest) with
      | Except.error m => (([] : List Phase), some m)
      | Except.ok _ => ([Phase.installing, Phase.running], none)) = ([], some (pre ++ name ++ post))
    rw [herr]

/-- Raw record of the live package foo used by the C2 scenario. -/
def fooRaw : TypingsDataRaw :=
  { libraryName := "Foo"
    typingsPackageName := "foo"
    sourceRepoURL := "https://github.com/DefinitelyTyped"
    dependencies := []
    libraryMajorVersion := 1
    libraryMinorVersion := 0
    globals := []
    declaredModules := []
    contentHash := "hash" }

/-- Catalog holding a single live package foo with no not-needed entry. -/
def fooCatalog : AllPackages :=
  { data := [("foo", TypingsVersions.ofRaw [(1, fooRaw)])], notNeeded := [] }

/-- Diff deleting a file of foo without touching notNeededPackages.json. -/
def fooDeleteDiffs : List GitDiff :=
  [⟨GitStatus.D, "types/foo/index.d.ts"⟩]

/-- Diff deleting a file of foo together with a notNeededPackages.json
entry. -/
def fooDeleteDiffsWithRegistry : List GitDiff :=
  [⟨GitStatus.M, "notNeededPackages.json"⟩, ⟨GitStatus.D, "types/foo/index.d.ts"⟩]

/-- Registry model answering no package for every name. -/
def noNpm : String → Option NpmInfo := fun _ => none

/-- Counterexample to C2 as stated: a diff that deletes all files of the
live package foo but has no entry for notNeededPackages.json contains a
violating status-D entry, yet the run raises no error and reaches the
install and test phases. -/
theorem c2_removal_validation_counterexample :
    (∃ d ∈ fooDeleteDiffs, d.status = GitStatus.D ∧
      ∃ dep, getDependencyFromFile d.file = some dep ∧
        violatesRemoval fooCatalog dep.name) ∧
    runTestsPhases fooCatalog fooDeleteDiffs noNpm =
      ([Phase.installing, Phase.running], none) := by
  constructor
  · refine ⟨⟨GitStatus.D, "types/foo/index.d.ts"⟩, by decide, rfl,
      ⟨"foo", DependencyVersion.star⟩, by decide, Or.inl (by decide)⟩
  · decide

/-- Witness for the amended C2 at the concrete foo scenario with the
registry file in the diff. -/
theorem c2_removal_validation_guarded_witness :
    (∀ d ∈ fooDeleteDiffsWithRegistry, d.status = GitStatus.D →
      ∀ dep, getDependencyFromFile d.file = some dep →
        violatesRemoval fooCatalog dep.name →
        ∃ m, runTestsPhases fooCatalog fooDeleteDiffsWithRegistry noNpm = ([], some m)) ∧
    (∀ name rest, deletedPackageNames fooDeleteDiffsWithRegistry = Except.ok (name :: rest) →
      violatesRemoval fooCatalog name →
      ∃ pre post, runTestsPhases fooCatalog fooDeleteDiffsWithRegistry noNpm =
        ([], some (pre ++ name ++ post))) :=
  c2_removal_validation_guarded fooCatalog fooDeleteDiffsWithRegistry noNpm (by decide)

/-- One structured worker result line, as handleOutput of doRunTests
receives it: a package path and a status that is either the literal OK
token or diagnostic text. -/
structure JobOutput where
  path : String
  status : String
  deriving DecidableEq, Repr

/-- The allFailures array of doRunTests after every completion arrived, in
arrival order: handleOutput pushes each non-OK result as it comes. -/
def collectFailures (outputs : List JobOutput) : List (String × String) :=
  outputs.foldl (fun acc o => if o.status = "OK" then acc else acc ++ [(o.path, o.status)]) []

/-- Error-stream lines of doRunTests: handleOutput prints the failing path
and its diagnostic on arrival, and the final report prints every failure
again before throwing. -/
def doRunTestsStderr (outputs : List JobOutput) : List String :=
  (outputs.foldl (fun acc o =>
    if o.status = "OK" then acc else acc ++ [o.path ++ " failing:", o.status]) []) ++
  (if collectFailures outputs = [] then [] else
    ["\n\n=== ERRORS ===\n"] ++
      (collectFailures outputs).flatMap (fun f => ["\n\nError in " ++ f.1, f.2]))

/-- Completion result of doRunTests: normal return when no failures were
recorded, otherwise the thrown error naming the failing packages. -/
def doRunTestsResult (outputs : List JobOutput) : Except String Unit :=
  if collectFailures outputs = [] then Except.ok ()
  else
    Except.error ("The following packages had errors: " ++
      String.intercalate ", " ((collectFailures outputs).map Prod.fst))

theorem collectFailures_eq_filter (outputs : List JobOutput) :
    collectFailures outputs =
      (outputs.filter (fun o => o.status != "OK")).map (fun o => (o.path, o.status)) := by
  suffices h : ∀ (l : List JobOutput) (acc : List (String × String)),
      l.foldl (fun acc o => if o.status = "OK" then acc else acc ++ [(o.path, o.status)]) acc =
        acc ++ (l.filter (fun o => o.status != "OK")).map (fun o => (o.path, o.status)) by
    simpa [collectFailures] using h outputs []
  intro l
  induction l with
  | nil => intro acc; simp
  | cons o os ih =>
      intro acc
      by_cases hst : o.status = "OK"
      · simp [hst, ih]
      · simp [hst, ih]

/-- Claim C5: the run completes normally iff no job reported a status
other than the literal OK token; when at least one failed, every failing
job path and its full diagnostic appear on the error stream and the run
throws an error naming the failing packages. -/
theorem c5_doRunTests_status (outputs : List JobOutput) :
    (doRunTestsResult outputs = Except.ok () ↔ ∀ o ∈ outputs, o.status = "OK") ∧
    (∀ p s, (p, s) ∈ collectFailures outputs →
      ("\n\nError in " ++ p) ∈ doRunTestsStderr outputs ∧ s ∈ doRunTestsStderr outputs) ∧
    (collectFailures outputs ≠ [] →
      doRunTestsResult outputs = Except.error ("The following packages had errors: " ++
        String.intercalate ", " ((collectFailures outputs).map Prod.fst))) := by
  refine ⟨⟨?_, ?_⟩, ?_, ?_⟩
  · intro h o ho
    by_contra hne
    have hmem : (o.path, o.status) ∈ collectFailures outputs := by
      rw [collectFailures_eq_filter]
      refine List.mem_map_of_mem _ (List.mem_filter.mpr ⟨ho, ?_⟩)
      simp [hne]
    have hne2 : collectFailures outputs ≠ [] := by
      intro hnil
      rw [hnil] at hmem
      cases hmem
    rw [doRunTestsResult, if_neg hne2] at h
    cases h
  · intro h
    have hnil : collectFailures outputs = [] := by
      rw [collectFailures_eq_filter]
      have h2 : outputs.filter (fun o => o.status != "OK") = [] := by
        rw [List.filter_eq_nil_iff]
        intro o ho
        simp [h o ho]
      rw [h2]
      rfl
    rw [doRunTestsResult, if_pos hnil]
  · intro p s hmem
    have hne2 : collectFailures outputs ≠ [] := by
      intro hnil
      rw [hnil] at hmem
      cases hmem
    constructor
    · unfold doRunTestsStderr
      rw [if_neg hne2]
      refine List.mem_append.mpr (Or.inr ?_)
      refine List.mem_append.mpr (Or.inr ?_)
      refine List.mem_flatMap.mpr ⟨(p, s), hmem, ?_⟩
      simp
    · unfold doRunTestsStderr
      rw [if_neg hne2]
      refine List.mem_append.mpr (Or.inr ?_)
      refine List.mem_append.mpr (Or.inr ?_)
      refine List.mem_flatMap.mpr ⟨(p, s), hmem, ?_⟩
      simp
  · intro h
    rw [doRunTestsResult, if_neg h]

/-- Claim C6 as amended: for every order in which job completions arrive,
the failure list assembled for the final report is exactly the failing
completions in completion-arrival order, a sublist of the arrival
sequence, with no reordering by job identity. -/
theorem c6_failures_in_arrival_order (outputs : List JobOutput) :
    collectFailures outputs =
      (outputs.filter (fun o => o.status != "OK")).map (fun o => (o.path, o.status)) ∧
    (collectFailures outputs).Sublist (outputs.map (fun o => (o.path, o.status))) := by
  refine ⟨collectFailures_eq_filter outputs, ?_⟩
  rw [collectFailures_eq_filter]
  exact List.Sublist.map _ (List.filter_sublist outputs)

/-- Arrival order for the C6 counterexample: the completion of package b
arrives before the completion of package a, both failing. -/
def c6Arrivals : List JobOutput :=
  [⟨"b", "diagnostic b"⟩, ⟨"a", "diagnostic a"⟩]

/-- Counterexample to C6 as stated: with completions arriving b then a,
the failure list stays in arrival order b, a even though ordering by job
identity would put a (the path smaller in character order) first. -/
theorem c6_failure_order_counterexample :
    collectFailures c6Arrivals = [("b", "diagnostic b"), ("a", "diagnostic a")] ∧
    ("a" : String).data < ("b" : String).data ∧
    collectFailures c6Arrivals ≠ [("a", "diagnostic a"), ("b", "diagnostic b")] := by
  refine ⟨by decide, by decide, by decide⟩

/-- One verification job handed to the worker pool: the package path plus
the two per-job flags doRunTests sets from changed-set membership; both
false is the strict mode used for changed packages, both true the lenient
mode used for merely dependent packages. -/
structure Job where
  path : String
  onlyTestTsNext : Bool
  expectOnly : Bool
  deriving DecidableEq, Repr

/-- The inputs doRunTests builds for runWithListeningChildProcesses: one
job per package, with both flags the negation of changed-set
membership. -/
def doRunTestsInputs (packages : List TypingsData) (changed : List TypingsData) : List Job :=
  packages.map (fun p => ⟨p.subDirectoryPath, !(changed.contains p), !(changed.contains p)⟩)

/-- The single scheduler call of runTests: changed and dependent packages
concatenated into one list, with the changed list as the changed set. -/
def runTestsJobs (changedPackages dependentPackages : List TypingsData) : List Job :=
  doRunTestsInputs (changedPackages ++ dependentPackages) changedPackages

/-- Claim C7: in the job list handed to the worker pool, a job carries the
strict flags iff its package belongs to the changed set and the lenient
flags iff it belongs only to the dependent set; both subsets go through
the same scheduler call, differing only in the per-job flags. -/
theorem c7_job_mode_flags (changedPackages dependentPackages : List TypingsData)
    (hdisj : ∀ p ∈ dependentPackages, p ∉ changedPackages) :
    runTestsJobs changedPackages dependentPackages =
      changedPackages.map (fun p => ⟨p.subDirectoryPath, false, false⟩) ++
        dependentPackages.map (fun p => ⟨p.subDirectoryPath, true, true⟩) := by
  unfold runTestsJobs doRunTestsInputs
  rw [List.map_append]
  congr 1
  · apply List.map_congr_left
    intro p hp
    have hc : changedPackages.contains p = true := by
      simpa using hp
    simp [hc]
    exact hp
  · apply List.map_congr_left
    intro p hp
    have hc : changedPackages.contains p = false := by
      simpa using hdisj p hp
    simp [hc]
    exact hdisj p hp

/-- Changed set for the C7 witness. -/
def c7Changed : List TypingsData := [⟨fooRaw, true⟩]

/-- Dependent set for the C7 witness, disjoint from the changed set. -/
def c7Dependent : List TypingsData := [⟨sampleRaw 1, true⟩]

/-- Witness for C7 at a concrete changed and dependent pair. -/
theorem c7_job_mode_flags_witness :
    runTestsJobs c7Changed c7Dependent =
      c7Changed.map (fun p => ⟨p.subDirectoryPath, false, false⟩) ++
        c7Dependent.map (fun p => ⟨p.subDirectoryPath, true, true⟩) :=
  c7_job_mode_flags c7Changed c7Dependent (by decide)

/-- Modelled from the spec: runWithListeningChildProcesses of util/util is
not in the sources. The spec fixes the protocol: N persistent listening
workers, the full job list fed at start, work-stealing dispatch in which
whichever worker signals readiness next receives the next unclaimed job,
one structured result emitted per completed job, and completions arriving
in any order. The state holds the unclaimed jobs, the per-worker in-flight
slot, the emitted results and the assignment log. -/
structure PoolState where
  pending : List Job
  inflight : List (Option Job)
  results : List (Job × String)
  assigned : List (Nat × Job)
  deriving DecidableEq, Repr

/-- Scheduler events: a worker signals readiness, or a worker completes
its in-flight job; the schedule order models the nondeterministic arrival
order of these signals. -/
inductive PoolEvent where
  | ready (w : Nat)
  | complete (w : Nat)
  deriving DecidableEq, Repr

/-- Modelled from the spec: one dispatch-loop reaction. A ready idle
worker receives the next unclaimed job; a completing worker appends its
structured result, the judge being the externally supplied deterministic
per-job verification outcome; every other signal is a no-op. -/
def poolStep (judge : Job → String) (s : PoolState) (e : PoolEvent) : PoolState :=
  match e with
  | PoolEvent.ready w =>
      if w < s.inflight.length then
        match s.inflight.getD w none with
        | some _ => s
        | none =>
            match s.pending with
            | [] => s
            | j :: rest =>
                { pending := rest
                  inflight := s.inflight.set w (some j)
                  results := s.results
                  assigned := s.assigned ++ [(w, j)] }
      else s
  | PoolEvent.complete w =>
      match s.inflight.getD w none with
      | none => s
      | some j =>
          { pending := s.pending
            inflight := s.inflight.set w none
            results := s.results ++ [(j, judge j)]
            assigned := s.assigned }

/-- Start state of a pool of size N over a job list. -/
def poolInit (N : Nat) (jobs : List Job) : PoolState :=
  { pending := jobs, inflight := List.replicate N none, results := [], assigned := [] }

/-- A whole run: the schedule of worker signals folded over the dispatch
loop. -/
def poolRun (judge : Job → String) (N : Nat) (jobs : List Job)
    (schedule : List PoolEvent) : PoolState :=
  schedule.foldl (poolStep judge) (poolInit N jobs)

/-- A run that has delivered everything: no unclaimed job and no worker
still busy. -/
def PoolState.finished (s : PoolState) : Prop :=
  s.pending = [] ∧ ∀ o ∈ s.inflight, o = none

/-- Jobs currently claimed by some worker. -/
def busyJobs (l : List (Option Job)) : List Job :=
  l.reduceOption

theorem busyJobs_set_some (l : List (Option Job)) (w : Nat) (j : Job)
    (hw : w < l.length) (hnone : l.getD w none = none) :
    (busyJobs (l.set w (some j))).Perm (j :: busyJobs l) := by
  induction l generalizing w with
  | nil => cases hw
  | cons o os ih =>
      cases w with
      | zero =>
          have ho : o = none := hnone
          subst ho
          simp only [List.set, busyJobs, List.reduceOption_cons_of_some,
            List.reduceOption_cons_of_none]
          exact List.Perm.refl _
      | succ w2 =>
          have hw2 : w2 < os.length := Nat.lt_of_succ_lt_succ hw
          have hnone2 : os.getD w2 none = none := hnone
          have h2 := ih w2 hw2 hnone2
          cases o with
          | none =>
              simpa only [List.set, busyJobs, List.reduceOption_cons_of_none] using h2
          | some a =>
              simp only [List.set, busyJobs, List.reduceOption_cons_of_some]
              exact (h2.cons a).trans (List.Perm.swap j a _)

theorem busyJobs_set_none (l : List (Option Job)) (w : Nat) (j : Job)
    (hsome : l.getD w none = some j) :
    (busyJobs l).Perm (j :: busyJobs (l.set w none)) := by
  induction l generalizing w with
  | nil => cases hsome
  | cons o os ih =>
      cases w with
      | zero =>
          have ho : o = some j := hsome
          subst ho
          simp only [List.set, busyJobs, List.reduceOption_cons_of_some,
            List.reduceOption_cons_of_none]
          exact List.Perm.refl _
      | succ w2 =>
          have hsome2 : os.getD w2 none = some j := hsome
          have h2 := ih w2 hsome2
          cases o with
          | none =>
              simpa only [List.set, busyJobs, List.reduceOption_cons_of_none] using h2
          | some a =>
              simp only [List.set, busyJobs, List.reduceOption_cons_of_some]
              exact (h2.cons a).trans (List.Perm.swap j a _)

theorem busyJobs_all_none (l : List (Option Job)) (h : ∀ o ∈ l, o = none) :
    busyJobs l = [] := by
  induction l with
  | nil => rfl
  | cons o os ih =>
      have ho : o = none := h o (List.mem_cons_self _ _)
      subst ho
      simp only [busyJobs, List.reduceOption_cons_of_none]
      exact ih (fun q hq => h q (List.mem_cons_of_mem _ hq))

theorem busyJobs_replicate_none (N : Nat) : busyJobs (List.replicate N none) = [] := by
  apply busyJobs_all_none
  intro o ho
  exact List.eq_of_mem_replicate ho

/-- Run invariant: every job is exactly one of recorded, in flight or
unclaimed; the assignment log matches the recorded and in-flight jobs; and
every recorded status is the judge verdict of its job. -/
def PoolInv (judge : Job → String) (jobs : List Job) (s : PoolState) : Prop :=
  ((s.results.map Prod.fst : Multiset Job) + (busyJobs s.inflight : Multiset Job) +
      (s.pending : Multiset Job) = (jobs : Multiset Job)) ∧
  ((s.assigned.map Prod.snd : Multiset Job) =
      (s.results.map Prod.fst : Multiset Job) + (busyJobs s.inflight : Multiset Job)) ∧
  ∀ r ∈ s.results, r.2 = judge r.1

theorem poolInv_init (judge : Job → String) (N : Nat) (jobs : List Job) :
    PoolInv judge jobs (poolInit N jobs) := by
  refine ⟨?_, ?_, ?_⟩
  · simp [poolInit, busyJobs_replicate_none]
  · simp [poolInit, busyJobs_replicate_none]
  · intro r hr
    cases hr

theorem poolInv_step (judge : Job → String) (jobs : List Job) (s : PoolState) (e : PoolEvent)
    (h : PoolInv judge jobs s) : PoolInv judge jobs (poolStep judge s e) := by
  obtain ⟨h1, h2, h3⟩ := h
  cases e with
  | ready w =>
      by_cases hw : w < s.inflight.length
      · cases ho : s.inflight.getD w none with
        | some j =>
            simpa only [poolStep, if_pos hw, ho] using ⟨h1, h2, h3⟩
        | none =>
            cases hp : s.pending with
            | nil =>
                simpa only [poolStep, if_pos hw, ho, hp] using ⟨h1, h2, h3⟩
            | cons j rest =>
                simp only [poolStep, if_pos hw, ho, hp]
                have hbusy : (busyJobs (s.inflight.set w (some j)) : Multiset Job) =
                    (j ::ₘ (busyJobs s.inflight : Multiset Job)) := by
                  exact Multiset.coe_eq_coe.mpr (busyJobs_set_some s.inflight w j hw ho)
                refine ⟨?_, ?_, h3⟩
                · rw [hp] at h1
                  rw [hbusy, ← h1]
                  simp only [← Multiset.cons_coe, ← Multiset.coe_add, Multiset.coe_singleton]
                  simp only [← Multiset.singleton_add]
                  abel
                · simp only [List.map_append, List.map_cons, List.map_nil]
                  rw [hbusy]
                  simp only [← Multiset.coe_add, Multiset.coe_singleton]
                  rw [h2]
                  simp only [← Multiset.singleton_add]
                  abel
      · simpa only [poolStep, if_neg hw] using ⟨h1, h2, h3⟩
  | complete w =>
      cases ho : s.inflight.getD w none with
      | none =>
          simpa only [poolStep, ho] using ⟨h1, h2, h3⟩
      | some j =>
          simp only [poolStep, ho]
          have hbusy : (busyJobs s.inflight : Multiset Job) =
              (j ::ₘ (busyJobs (s.inflight.set w none) : Multiset Job)) :=
            Multiset.coe_eq_coe.mpr (busyJobs_set_none s.inflight w j ho)
          refine ⟨?_, ?_, ?_⟩
          · simp only [List.map_append, List.map_cons, List.map_nil]
            rw [hbusy] at h1
            rw [← h1]
            simp only [← Multiset.coe_add, Multiset.coe_singleton]
            simp only [← Multiset.singleton_add]
            abel
          · simp only [List.map_append, List.map_cons, List.map_nil]
            rw [hbusy] at h2
            rw [h2]
            simp only [← Multiset.coe_add, Multiset.coe_singleton]
            simp only [← Multiset.singleton_add]
            abel
          · intro r hr
            rcases List.mem_append.mp hr with hr | hr
            · exact h3 r hr
            · rw [List.mem_singleton] at hr
              subst hr
              rfl

theorem poolInv_run (judge : Job → String) (N : Nat) (jobs : List Job)
    (schedule : List PoolEvent) : PoolInv judge jobs (poolRun judge N jobs schedule) := by
  suffices h : ∀ (l : List PoolEvent) (s : PoolState), PoolInv judge jobs s →
      PoolInv judge jobs (l.foldl (poolStep judge) s) by
    exact h schedule (poolInit N jobs) (poolInv_init judge N jobs)
  intro l
  induction l with
  | nil => intro s hs; exact hs
  | cons e es ih =>
      intro s hs
      exact ih (poolStep judge s e) (poolInv_step judge jobs s e hs)

theorem results_eq_map_of_judged (judge : Job → String) (rs : List (Job × String))
    (h : ∀ r ∈ rs, r.2 = judge r.1) :
    rs = (rs.map Prod.fst).map (fun j => (j, judge j)) := by
  induction rs with
  | nil => rfl
  | cons r rt ih =>
      have hr := h r (List.mem_cons_self _ _)
      have h2 : r = (r.1, judge r.1) := by
        obtain ⟨a, b⟩ := r
        simp only at hr
        rw [hr]
      have h3 := ih (fun q hq => h q (List.mem_cons_of_mem _ hq))
      simp only [List.map_cons]
      rw [← h2, ← h3]

theorem finished_results_perm (judge : Job → String) (N : Nat) (jobs : List Job)
    (schedule : List PoolEvent) (hfin : (poolRun judge N jobs schedule).finished) :
    ((poolRun judge N jobs schedule).results.map Prod.fst).Perm jobs ∧
    ((poolRun judge N jobs schedule).assigned.map Prod.snd).Perm jobs ∧
    ((poolRun judge N jobs schedule).results).Perm
      (jobs.map (fun j => (j, judge j))) := by
  obtain ⟨h1, h2, h3⟩ := poolInv_run judge N jobs schedule
  obtain ⟨hpend, hbusy⟩ := hfin
  rw [hpend, busyJobs_all_none _ hbusy] at h1
  rw [busyJobs_all_none _ hbusy] at h2
  simp only [Multiset.coe_nil, add_zero] at h1 h2
  have hr : ((poolRun judge N jobs schedule).results.map Prod.fst).Perm jobs :=
    Multiset.coe_eq_coe.mp h1
  have ha : ((poolRun judge N jobs schedule).assigned.map Prod.snd).Perm jobs :=
    Multiset.coe_eq_coe.mp (h2.trans h1)
  refine ⟨hr, ha, ?_⟩
  rw [results_eq_map_of_judged judge _ h3]
  exact hr.map (fun j => (j, judge j))

/-- Claim C9: for every job list and pool sizes, the scheduler delivers
each submitted job to exactly one worker and records exactly one result
per job, and two complete runs of the same job list, whatever the pool
sizes and signal orders, record the same per-job outcomes. -/
theorem c9_pool_exactly_once (judge : Job → String) (jobs : List Job)
    (n1 n2 : Nat) (s1 s2 : List PoolEvent)
    (hf1 : (poolRun judge n1 jobs s1).finished)
    (hf2 : (poolRun judge n2 jobs s2).finished) :
    ((poolRun judge n1 jobs s1).assigned.map Prod.snd).Perm jobs ∧
    ((poolRun judge n1 jobs s1).results.map Prod.fst).Perm jobs ∧
    (∀ r ∈ (poolRun judge n1 jobs s1).results, r.2 = judge r.1) ∧
    ((poolRun judge n1 jobs s1).results).Perm ((poolRun judge n2 jobs s2).results) := by
  obtain ⟨hr1, ha1, hp1⟩ := finished_results_perm judge n1 jobs s1 hf1
  obtain ⟨hr2, ha2, hp2⟩ := finished_results_perm judge n2 jobs s2 hf2
  refine ⟨ha1, hr1, ?_, hp1.trans hp2.symm⟩
  exact (poolInv_run judge n1 jobs s1).2.2

/-- Jobs for the C9 witness. -/
def c9Jobs : List Job :=
  [⟨"alpha", false, false⟩, ⟨"beta", true, true⟩]

/-- Deterministic per-job outcome for the C9 witness. -/
def c9Judge : Job → String :=
  fun j => if j.path = "alpha" then "OK" else "diagnostic beta"

/-- Single-worker schedule completing both jobs. -/
def c9ScheduleOne : List PoolEvent :=
  [PoolEvent.ready 0, PoolEvent.complete 0, PoolEvent.ready 0, PoolEvent.complete 0]

/-- Eight-worker schedule completing both jobs on workers 3 and 5, with
completions out of submission order. -/
def c9ScheduleEight : List PoolEvent :=
  [PoolEvent.ready 3, PoolEvent.ready 5, PoolEvent.complete 5, PoolEvent.complete 3]

/-- Witness for C9: a concrete two-job list run with pool size one and
pool size eight. -/
theorem c9_pool_exactly_once_witness :
    ((poolRun c9Judge 1 c9Jobs c9ScheduleOne).assigned.map Prod.snd).Perm c9Jobs ∧
    ((poolRun c9Judge 1 c9Jobs c9ScheduleOne).results.map Prod.fst).Perm c9Jobs ∧
    (∀ r ∈ (poolRun c9Judge 1 c9Jobs c9ScheduleOne).results, r.2 = c9Judge r.1) ∧
    ((poolRun c9Judge 1 c9Jobs c9ScheduleOne).results).Perm
      ((poolRun c9Judge 8 c9Jobs c9ScheduleEight).results) :=
  c9_pool_exactly_once c9Judge c9Jobs 1 8 c9ScheduleOne c9ScheduleEight
    (by constructor <;> decide) (by constructor <;> decide)

/-- Fuel-indexed evaluation of the globals accessor of NotNeededPackage
(lib/packages): the body returns this.globals, which invokes the same
accessor again unconditionally, so every step only consumes fuel; the
fuel counts the accessor invocations the runtime stack admits, and
exhaustion yields no value. -/
def NotNeededPackage.globalsEval (p : NotNeededPackage) : Nat → Option (List String)
  | 0 => none
  | fuel + 1 => NotNeededPackage.globalsEval p fuel

/-- declaredModules accessor of NotNeededPackage: the empty array. -/
def NotNeededPackage.declaredModules (p : NotNeededPackage) : List String :=
  []

/-- Claim C10, which the code contradicts: for every NotNeededPackage and
every recursion budget, evaluating the globals accessor exhausts the
budget without ever yielding an array of global names, while the sibling
declaredModules accessor does return the empty array. -/
theorem c10_globals_never_yields (p : NotNeededPackage) (fuel : Nat) :
    p.globalsEval fuel = none ∧ p.declaredModules = [] := by
  constructor
  · induction fuel with
    | zero => rfl
    | succ n ih => exact ih
  · rfl
